import Mathlib

/-!
Verification of the task-scheduling, ring-navigation and perception-verification
core of the gacha bot repository.

The Lean definitions below are shallow embeddings of the corresponding Python
functions:

* `find_quickest_way_to`, `turn_to`        — src/bot/grind_bot.py
* `find_all_dedi_positions`, `get_dedi_materials` — src/bot/grind_bot.py
* `validate_dust_amount`, `walk_to_dedi`   — src/bot/stations/crystal/crystal_station.py
* `do_next_task`                            — src/bot/gacha_bot.py
* `check_lap_finished`, `load_gacha`        — src/bot/stations/ytrap/ytrap_station.py

Machine side effects (turning, walking, screen capture, OCR) are modelled as
oracles/inputs; unbounded Python loops are modelled with explicit fuel, where a
`none` result corresponds to divergence of the Python loop.
-/

namespace GachaBot

/-! ## Ring navigator (src/bot/grind_bot.py)

`station_turns` is a dict, so `list(self.station_turns)` is the insertion-order
list of its keys.  `find_quickest_way_to` iterates `cycle(stations)` resp.
`cycle(reversed(stations))` with a `start_counting` flag.  One pass of the
`cycle` iterator over the underlying list is modelled by `fwdPass`/`bwdPass`;
the infinite cycling is an outer fuel-indexed loop over passes.  Whenever the
Python loop terminates at all it breaks within the first two passes (the flag
is set during pass one, and every station recurs in pass two), so fuel 2 makes
`none` coincide exactly with divergence of the Python loop. -/

def stationRing : List String :=
  ["Grinder", "Exo Mek", "Vault", "Crystal", "Hide", "Metal", "Electronics",
   "Pearls", "Paste", "Gear Vault"]

/-- One pass of `for station in cycle(stations)` of the forward scan:
`if station == current: start_counting = True; continue`,
`if not start_counting: continue`, `forward_path.append(station)`,
`if station == target: break`.  `.inl path` models the `break`,
`.inr (counting, acc)` is the live loop state at the end of the pass. -/
def fwdPass (current target : String) :
    List String → Bool → List String → List String ⊕ (Bool × List String)
  | [], counting, acc => .inr (counting, acc)
  | s :: rest, counting, acc =>
    if s = current then fwdPass current target rest true acc
    else if counting then
      if s = target then .inl (acc ++ [s])
      else fwdPass current target rest counting (acc ++ [s])
    else fwdPass current target rest counting acc

/-- One pass of `for station in cycle(reversed(stations))` of the backward
scan.  Unlike the forward scan the Python code has no `continue` after
setting `start_counting`, so the pass falls through and appends the current
station itself before checking for the target. -/
def bwdPass (current target : String) :
    List String → Bool → List String → List String ⊕ (Bool × List String)
  | [], counting, acc => .inr (counting, acc)
  | s :: rest, counting, acc =>
    let counting' := if s = current then true else counting
    if counting' then
      if s = target then .inl (acc ++ [s])
      else bwdPass current target rest counting' (acc ++ [s])
    else bwdPass current target rest counting' acc

/-- Iterate `fwdPass` over consecutive passes of the cycle; `none` models a
Python loop that never breaks. -/
def fwdLoop (current target : String) (stations : List String) :
    Nat → Bool → List String → Option (List String)
  | 0, _, _ => none
  | n + 1, counting, acc =>
    match fwdPass current target stations counting acc with
    | .inl path => some path
    | .inr st => fwdLoop current target stations n st.1 st.2

/-- Iterate `bwdPass` over consecutive passes of the reversed cycle. -/
def bwdLoop (current target : String) (stations : List String) :
    Nat → Bool → List String → Option (List String)
  | 0, _, _ => none
  | n + 1, counting, acc =>
    match bwdPass current target stations counting acc with
    | .inl path => some path
    | .inr st => bwdLoop current target stations n st.1 st.2

/-- `GrindBot.find_quickest_way_to` (src/bot/grind_bot.py lines 65–101),
parameterised by the station list and the mutable `self.current_station`.
Returns `none` when the Python loop would cycle forever (e.g. the target is
not in the ring). -/
def find_quickest_way_to (stations : List String) (current target : String) :
    Option (List String × String) :=
  if target = current then some ([], "stay")
  else
    match fwdLoop current target stations 2 false [],
          bwdLoop current target stations.reverse 2 false [] with
    | some fwd, some bwd =>
      some (if fwd.length < bwd.length then (fwd, "forward") else (bwd, "backwards"))
    | _, _ => none

/-- Forward traversal distance (number of hops) from `current` to `target`
on the ring, as described by the spec: waypoints collected walking forward
starting immediately after `current` until `target` is reached. -/
def fdist (stations : List String) (current target : String) : Nat :=
  (stations.indexOf target + stations.length - stations.indexOf current) %
    stations.length

/-- Backward traversal distance (number of hops) from `current` to `target`
on the ring. -/
def bdist (stations : List String) (current target : String) : Nat :=
  (stations.indexOf current + stations.length - stations.indexOf target) %
    stations.length

example : find_quickest_way_to stationRing "Gear Vault" "Grinder" =
    some (["Grinder"], "forward") := by decide

example : find_quickest_way_to stationRing "Grinder" "Gear Vault" =
    some (["Grinder", "Gear Vault"], "backwards") := by decide

example : find_quickest_way_to stationRing "Grinder" "Grinder" =
    some ([], "stay") := by decide

/-- Turn axis of a `station_turns` entry: `self.player.turn_x_by` or
`self.player.turn_y_by`. -/
inductive Axis
  | x
  | y
deriving DecidableEq, Repr

/-- The `self.station_turns` dict of `GrindBot.__init__`: each station maps to
the turn operation(s) reaching it from its ring predecessor ("Gear Vault" has a
list of two).  Keys absent from the dict raise `KeyError` in Python; `turn_to`
only ever looks up stations of the ring, so the `[]` default is never hit
there. -/
def station_turns (s : String) : List (Axis × Int) :=
  if s = "Grinder" then [(.x, -50)]
  else if s = "Exo Mek" then [(.x, -110)]
  else if s = "Vault" then [(.x, -95)]
  else if s = "Crystal" then [(.x, -70)]
  else if s = "Hide" then [(.y, 40)]
  else if s = "Metal" then [(.x, -60)]
  else if s = "Electronics" then [(.y, -40)]
  else if s = "Pearls" then [(.x, -60)]
  else if s = "Paste" then [(.y, 40)]
  else if s = "Gear Vault" then [(.y, -40), (.x, -70)]
  else []

/-- The `for station in path` loop of `GrindBot.turn_to` (lines 106–124):
sets `self.current_station = station`, returns early when travelling
backwards and the target is reached, otherwise emits that station's turn
deltas (sign-flipped when backwards).  Returns the final `current_station`
together with the emitted turn operations. -/
def turnSteps (dir target : String) :
    List String → String → List (Axis × Int) → String × List (Axis × Int)
  | [], cur, ops => (cur, ops)
  | s :: rest, _cur, ops =>
    if dir = "backwards" ∧ s = target then (s, ops)
    else
      turnSteps dir target rest s
        (ops ++ (station_turns s).map fun op =>
          (op.1, op.2 * (if dir = "backwards" then -1 else 1)))

/-- `GrindBot.turn_to` (src/bot/grind_bot.py lines 103–124), returning the new
`current_station` and the list of turn operations issued to the player. -/
def turn_to (current target : String) : Option (String × List (Axis × Int)) :=
  match find_quickest_way_to stationRing current target with
  | none => none
  | some pd => some (turnSteps pd.2 target pd.1 current [])

end GachaBot

namespace GachaBot

/-! ## Claims C1, C6, C8 — ring navigator -/

/-- C1: for every current and target viewpoint of the ring with
`target ≠ current`, `find_quickest_way_to` picks the forward direction when
the forward traversal (`fdist` hops) is strictly shorter than the backward
traversal (`bdist` hops), the backward direction when the backward traversal
is strictly shorter, and the forward direction on a tie — equivalently, the
direction is "forward" exactly when `fdist ≤ bdist`. -/
theorem find_quickest_way_picks_shorter_tie_forward :
    ∀ current ∈ stationRing, ∀ target ∈ stationRing, target ≠ current →
      (find_quickest_way_to stationRing current target).map Prod.snd =
        some (if fdist stationRing current target ≤ bdist stationRing current target
              then "forward" else "backwards") := by
  decide

/-- Witness for C1: concrete instance current = "Gear Vault",
target = "Grinder" (forward distance 1, backward distance 9). -/
theorem find_quickest_way_picks_shorter_tie_forward_witness :
    ("Grinder" : String) ≠ "Gear Vault" ∧
      (find_quickest_way_to stationRing "Gear Vault" "Grinder").map Prod.snd =
        some (if fdist stationRing "Gear Vault" "Grinder" ≤
                  bdist stationRing "Gear Vault" "Grinder"
              then "forward" else "backwards") :=
  ⟨by decide,
    find_quickest_way_picks_shorter_tie_forward "Gear Vault" (by decide)
      "Grinder" (by decide) (by decide)⟩
/-! ### Generic characterisation of the two scans on an arbitrary ring

For the size bound of C6 the scans are characterised on an arbitrary station
list with distinct names, decomposed around the current station (`as`, `bs`)
and around the target (`xs`, `ys`). -/

/-- The prefix of a list up to and including the first occurrence of
`target`. -/
def takeTo (target : String) : List String → List String
  | [] => []
  | s :: rest => if s = target then [s] else s :: takeTo target rest

theorem takeTo_append (target : String) :
    ∀ xs ys, target ∉ xs → takeTo target (xs ++ target :: ys) = xs ++ [target] := by
  intro xs
  induction xs with
  | nil => intro ys _; simp [takeTo]
  | cons x xs ih =>
    intro ys hx
    have hxt : ¬ x = target := fun h => hx (by simp [h])
    show takeTo target (x :: (xs ++ target :: ys)) = x :: (xs ++ [target])
    rw [takeTo, if_neg hxt, ih ys (fun h => hx (List.mem_cons_of_mem x h))]

theorem fwdPass_cons_current (current target : String) (l acc : List String)
    (counting : Bool) :
    fwdPass current target (current :: l) counting acc =
      fwdPass current target l true acc := by
  rw [fwdPass]
  simp

theorem fwdPass_cons_true (current target s : String) (l acc : List String)
    (h1 : ¬ s = current) :
    fwdPass current target (s :: l) true acc =
      if s = target then .inl (acc ++ [s])
      else fwdPass current target l true (acc ++ [s]) := by
  rw [fwdPass]
  simp [h1]

theorem bwdPass_cons_current (current target : String) (l acc : List String)
    (counting : Bool) (hct : ¬ current = target) :
    bwdPass current target (current :: l) counting acc =
      bwdPass current target l true (acc ++ [current]) := by
  rw [bwdPass]
  simp [hct]

theorem bwdPass_cons_true (current target s : String) (l acc : List String) :
    bwdPass current target (s :: l) true acc =
      if s = target then .inl (acc ++ [s])
      else bwdPass current target l true (acc ++ [s]) := by
  rw [bwdPass]
  simp [ite_self]

theorem fwdPass_skip (current target : String) :
    ∀ l rest acc, current ∉ l →
      fwdPass current target (l ++ rest) false acc =
        fwdPass current target rest false acc := by
  intro l
  induction l with
  | nil => intro rest acc _; rfl
  | cons s l ih =>
    intro rest acc hs
    have h1 : ¬ s = current := fun h => hs (by simp [h])
    show fwdPass current target (s :: (l ++ rest)) false acc =
      fwdPass current target rest false acc
    rw [fwdPass]
    simp only [h1, if_false, Bool.false_eq_true]
    exact ih rest acc (fun h => hs (List.mem_cons_of_mem s h))

theorem fwdPass_found (current target : String) :
    ∀ l rest acc, current ∉ l → target ∈ l →
      fwdPass current target (l ++ rest) true acc = .inl (acc ++ takeTo target l) := by
  intro l
  induction l with
  | nil => intro rest acc _ ht; cases ht
  | cons s l ih =>
    intro rest acc hc ht
    have h1 : ¬ s = current := fun h => hc (by simp [h])
    show fwdPass current target (s :: (l ++ rest)) true acc =
      .inl (acc ++ takeTo target (s :: l))
    rw [fwdPass_cons_true current target s (l ++ rest) acc h1]
    by_cases h2 : s = target
    · rw [if_pos h2, takeTo, if_pos h2]
    · have ht' : target ∈ l := by
        cases List.mem_cons.mp ht with
        | inl h => exact absurd h.symm h2
        | inr h => exact h
      rw [if_neg h2, ih rest (acc ++ [s]) (fun h => hc (List.mem_cons_of_mem s h)) ht',
        takeTo, if_neg h2]
      simp

theorem fwdPass_pass (current target : String) :
    ∀ l rest acc, current ∉ l → target ∉ l →
      fwdPass current target (l ++ rest) true acc =
        fwdPass current target rest true (acc ++ l) := by
  intro l
  induction l with
  | nil => intro rest acc _ _; simp
  | cons s l ih =>
    intro rest acc hc ht
    have h1 : ¬ s = current := fun h => hc (by simp [h])
    have h2 : ¬ s = target := fun h => ht (by simp [h])
    show fwdPass current target (s :: (l ++ rest)) true acc =
      fwdPass current target rest true (acc ++ s :: l)
    rw [fwdPass_cons_true current target s (l ++ rest) acc h1, if_neg h2,
      ih rest (acc ++ [s]) (fun h => hc (List.mem_cons_of_mem s h))
        (fun h => ht (List.mem_cons_of_mem s h))]
    simp

theorem bwdPass_skip (current target : String) :
    ∀ l rest acc, current ∉ l →
      bwdPass current target (l ++ rest) false acc =
        bwdPass current target rest false acc := by
  intro l
  induction l with
  | nil => intro rest acc _; rfl
  | cons s l ih =>
    intro rest acc hs
    have h1 : ¬ s = current := fun h => hs (by simp [h])
    show bwdPass current target (s :: (l ++ rest)) false acc =
      bwdPass current target rest false acc
    rw [bwdPass]
    simp only [h1, if_false, Bool.false_eq_true]
    exact ih rest acc (fun h => hs (List.mem_cons_of_mem s h))

theorem bwdPass_found (current target : String) :
    ∀ l rest acc, target ∈ l →
      bwdPass current target (l ++ rest) true acc = .inl (acc ++ takeTo target l) := by
  intro l
  induction l with
  | nil => intro rest acc ht; cases ht
  | cons s l ih =>
    intro rest acc ht
    show bwdPass current target (s :: (l ++ rest)) true acc =
      .inl (acc ++ takeTo target (s :: l))
    rw [bwdPass_cons_true current target s (l ++ rest) acc]
    by_cases h2 : s = target
    · rw [if_pos h2, takeTo, if_pos h2]
    · have ht' : target ∈ l := by
        cases List.mem_cons.mp ht with
        | inl h => exact absurd h.symm h2
        | inr h => exact h
      rw [if_neg h2, ih rest (acc ++ [s]) ht', takeTo, if_neg h2]
      simp

theorem bwdPass_pass (current target : String) :
    ∀ l rest acc, target ∉ l →
      bwdPass current target (l ++ rest) true acc =
        bwdPass current target rest true (acc ++ l) := by
  intro l
  induction l with
  | nil => intro rest acc _; simp
  | cons s l ih =>
    intro rest acc ht
    have h2 : ¬ s = target := fun h => ht (by simp [h])
    show bwdPass current target (s :: (l ++ rest)) true acc =
      bwdPass current target rest true (acc ++ s :: l)
    rw [bwdPass_cons_true current target s (l ++ rest) acc, if_neg h2,
      ih rest (acc ++ [s]) (fun h => ht (List.mem_cons_of_mem s h))]
    simp

theorem fwdLoop_succ_inl (current target : String) (stations : List String)
    (n : Nat) (counting : Bool) (acc path : List String)
    (h : fwdPass current target stations counting acc = .inl path) :
    fwdLoop current target stations (n + 1) counting acc = some path := by
  rw [fwdLoop, h]

theorem fwdLoop_succ_inr (current target : String) (stations : List String)
    (n : Nat) (counting c' : Bool) (acc acc' : List String)
    (h : fwdPass current target stations counting acc = .inr (c', acc')) :
    fwdLoop current target stations (n + 1) counting acc =
      fwdLoop current target stations n c' acc' := by
  rw [fwdLoop, h]

theorem bwdLoop_succ_inl (current target : String) (stations : List String)
    (n : Nat) (counting : Bool) (acc path : List String)
    (h : bwdPass current target stations counting acc = .inl path) :
    bwdLoop current target stations (n + 1) counting acc = some path := by
  rw [bwdLoop, h]

theorem bwdLoop_succ_inr (current target : String) (stations : List String)
    (n : Nat) (counting c' : Bool) (acc acc' : List String)
    (h : bwdPass current target stations counting acc = .inr (c', acc')) :
    bwdLoop current target stations (n + 1) counting acc =
      bwdLoop current target stations n c' acc' := by
  rw [bwdLoop, h]

/-- The chosen path on an arbitrary ring when the target lies after the
current station in construction order: `stations = as ++ current :: xs ++
target :: ys`.  The forward scan breaks in its first pass with `xs ++
[target]`; the backward scan collects `current` and the reversed prefix in
its first pass and breaks in the second with the target appended. -/
theorem find_quickest_way_target_after (current target : String)
    (as xs ys : List String) (htc : target ≠ current)
    (hca : current ∉ as) (hcx : current ∉ xs) (hcy : current ∉ ys)
    (htx : target ∉ xs) (hty : target ∉ ys) (hta : target ∉ as) :
    find_quickest_way_to (as ++ current :: (xs ++ target :: ys)) current target =
      some (if (xs ++ [target]).length <
                (current :: (as.reverse ++ (ys.reverse ++ [target]))).length
            then (xs ++ [target], "forward")
            else (current :: (as.reverse ++ (ys.reverse ++ [target])), "backwards")) := by
  have hct : ¬ current = target := fun h => htc h.symm
  have hnc : current ∉ xs ++ target :: ys := by
    intro h
    rcases List.mem_append.mp h with h | h
    · exact hcx h
    · rcases List.mem_cons.mp h with h | h
      · exact htc h.symm
      · exact hcy h
  have hfwd : fwdLoop current target (as ++ current :: (xs ++ target :: ys)) 2
      false [] = some (xs ++ [target]) := by
    apply fwdLoop_succ_inl
    rw [fwdPass_skip current target as (current :: (xs ++ target :: ys)) [] hca,
      fwdPass_cons_current current target (xs ++ target :: ys) [] false]
    have hf := fwdPass_found current target (xs ++ target :: ys) [] []
      hnc (by simp)
    rw [List.append_nil] at hf
    rw [hf, takeTo_append target xs ys htx]
    simp
  have hrev : (as ++ current :: (xs ++ target :: ys)).reverse =
      (ys.reverse ++ target :: xs.reverse) ++ (current :: as.reverse) := by
    simp
  have hncr : current ∉ ys.reverse ++ target :: xs.reverse := by
    intro h
    rcases List.mem_append.mp h with h | h
    · exact hcy (List.mem_reverse.mp h)
    · rcases List.mem_cons.mp h with h | h
      · exact htc h.symm
      · exact hcx (List.mem_reverse.mp h)
  have hbwd : bwdLoop current target
      (as ++ current :: (xs ++ target :: ys)).reverse 2 false [] =
      some (current :: (as.reverse ++ (ys.reverse ++ [target]))) := by
    rw [hrev]
    have p1 : bwdPass current target
        ((ys.reverse ++ target :: xs.reverse) ++ (current :: as.reverse)) false [] =
        .inr (true, [current] ++ as.reverse) := by
      rw [bwdPass_skip current target (ys.reverse ++ target :: xs.reverse)
          (current :: as.reverse) [] hncr,
        bwdPass_cons_current current target as.reverse [] false hct]
      have hp := bwdPass_pass current target as.reverse [] ([] ++ [current])
        (fun h => hta (List.mem_reverse.mp h))
      rw [List.append_nil] at hp
      rw [hp]
      rfl
    rw [bwdLoop_succ_inr current target _ 1 false true [] ([current] ++ as.reverse) p1]
    apply bwdLoop_succ_inl
    have hf := bwdPass_found current target (ys.reverse ++ target :: xs.reverse)
      (current :: as.reverse) ([current] ++ as.reverse) (by simp)
    rw [hf, takeTo_append target ys.reverse xs.reverse
      (fun h => hty (List.mem_reverse.mp h))]
    simp
  rw [find_quickest_way_to, if_neg htc, hfwd, hbwd]

/-- The chosen path on an arbitrary ring when the target lies before the
current station in construction order: `stations = xs ++ target :: ys ++
current :: bs`.  The forward scan collects the suffix `bs` in its first pass
and breaks in the second; the backward scan breaks in its first pass. -/
theorem find_quickest_way_target_before (current target : String)
    (xs ys bs : List String) (htc : target ≠ current)
    (hcx : current ∉ xs) (hcy : current ∉ ys) (hcb : current ∉ bs)
    (htx : target ∉ xs) (hty : target ∉ ys) (htb : target ∉ bs) :
    find_quickest_way_to ((xs ++ target :: ys) ++ current :: bs) current target =
      some (if (bs ++ (xs ++ [target])).length <
                (current :: (ys.reverse ++ [target])).length
            then (bs ++ (xs ++ [target]), "forward")
            else (current :: (ys.reverse ++ [target]), "backwards")) := by
  have hct : ¬ current = target := fun h => htc h.symm
  have hca : current ∉ xs ++ target :: ys := by
    intro h
    rcases List.mem_append.mp h with h | h
    · exact hcx h
    · rcases List.mem_cons.mp h with h | h
      · exact htc h.symm
      · exact hcy h
  have hta : target ∈ xs ++ target :: ys := by simp
  have hfwd : fwdLoop current target ((xs ++ target :: ys) ++ current :: bs) 2
      false [] = some (bs ++ (xs ++ [target])) := by
    have p1 : fwdPass current target ((xs ++ target :: ys) ++ current :: bs)
        false [] = .inr (true, [] ++ bs) := by
      rw [fwdPass_skip current target (xs ++ target :: ys) (current :: bs) [] hca,
        fwdPass_cons_current current target bs [] false]
      have hp := fwdPass_pass current target bs [] [] hcb htb
      rw [List.append_nil] at hp
      rw [hp]
      rfl
    rw [fwdLoop_succ_inr current target _ 1 false true [] ([] ++ bs) p1]
    apply fwdLoop_succ_inl
    rw [fwdPass_found current target (xs ++ target :: ys) (current :: bs)
      ([] ++ bs) hca hta]
    rw [takeTo_append target xs ys htx]
    simp
  have hrev : ((xs ++ target :: ys) ++ current :: bs).reverse =
      bs.reverse ++ (current :: (ys.reverse ++ target :: xs.reverse)) := by
    simp
  have hbwd : bwdLoop current target
      ((xs ++ target :: ys) ++ current :: bs).reverse 2 false [] =
      some (current :: (ys.reverse ++ [target])) := by
    rw [hrev]
    apply bwdLoop_succ_inl
    rw [bwdPass_skip current target bs.reverse
        (current :: (ys.reverse ++ target :: xs.reverse)) []
        (fun h => hcb (List.mem_reverse.mp h)),
      bwdPass_cons_current current target (ys.reverse ++ target :: xs.reverse)
        [] false hct]
    have hf := bwdPass_found current target (ys.reverse ++ target :: xs.reverse)
      [] ([] ++ [current]) (by simp)
    rw [List.append_nil] at hf
    rw [hf, takeTo_append target ys.reverse xs.reverse
      (fun h => hty (List.mem_reverse.mp h))]
    simp
  rw [find_quickest_way_to, if_neg htc, hfwd, hbwd]

/-- C6: for every pair of viewpoints on a ring of size `N` (any station list
with distinct names containing both), the path chosen by
`find_quickest_way_to` has length at most `⌈N/2⌉ = (N + 1) / 2`. -/
theorem find_quickest_way_length_le_half_ring (stations : List String)
    (hnd : stations.Nodup) (current target : String)
    (hc : current ∈ stations) (ht : target ∈ stations)
    (path : List String) (dir : String)
    (h : find_quickest_way_to stations current target = some (path, dir)) :
    path.length ≤ (stations.length + 1) / 2 := by
  by_cases htc : target = current
  · rw [find_quickest_way_to, if_pos htc] at h
    injection h with h1
    injection h1 with hp hd
    subst hp
    simp
  · obtain ⟨as, bs, rfl⟩ := List.append_of_mem hc
    have hnd' := hnd
    rw [List.nodup_append] at hnd'
    obtain ⟨hndas, hndcb, hdisj⟩ := hnd'
    rw [List.nodup_cons] at hndcb
    obtain ⟨hcb, hndbs⟩ := hndcb
    have hca : current ∉ as := fun hmem => hdisj hmem (List.mem_cons_self _ _)
    rcases List.mem_append.mp ht with hta | htcb
    · obtain ⟨xs, ys, rfl⟩ := List.append_of_mem hta
      have hndxs := hndas
      rw [List.nodup_append] at hndxs
      obtain ⟨hnx, hnty, hdxy⟩ := hndxs
      rw [List.nodup_cons] at hnty
      have htx : target ∉ xs := fun hm => hdxy hm (List.mem_cons_self _ _)
      have hty : target ∉ ys := hnty.1
      have htb : target ∉ bs := fun hm =>
        hdisj (by simp) (List.mem_cons_of_mem _ hm)
      have hcx : current ∉ xs := fun hm => hca (by simp [hm])
      have hcy : current ∉ ys := fun hm => hca (by simp [hm])
      rw [find_quickest_way_target_before current target xs ys bs htc hcx hcy
          hcb htx hty htb] at h
      by_cases hlt : (bs ++ (xs ++ [target])).length <
          (current :: (ys.reverse ++ [target])).length
      · rw [if_pos hlt] at h
        injection h with h1
        injection h1 with hp hd
        subst hp
        simp only [List.length_append, List.length_cons, List.length_reverse,
          List.length_nil, List.length_singleton] at hlt ⊢
        omega
      · rw [if_neg hlt] at h
        injection h with h1
        injection h1 with hp hd
        subst hp
        simp only [List.length_append, List.length_cons, List.length_reverse,
          List.length_nil, List.length_singleton] at hlt ⊢
        omega
    · rcases List.mem_cons.mp htcb with h' | htb'
      · exact absurd h' htc
      · obtain ⟨xs, ys, rfl⟩ := List.append_of_mem htb'
        have hndxs := hndbs
        rw [List.nodup_append] at hndxs
        obtain ⟨hnx, hnty, hdxy⟩ := hndxs
        rw [List.nodup_cons] at hnty
        have htx : target ∉ xs := fun hm => hdxy hm (List.mem_cons_self _ _)
        have hty : target ∉ ys := hnty.1
        have hta2 : target ∉ as := fun hm =>
          hdisj hm (List.mem_cons_of_mem _ (by simp))
        have hcx : current ∉ xs := fun hm => hcb (by simp [hm])
        have hcy : current ∉ ys := fun hm => hcb (by simp [hm])
        rw [find_quickest_way_target_after current target as xs ys htc hca hcx
            hcy htx hty hta2] at h
        by_cases hlt : (xs ++ [target]).length <
            (current :: (as.reverse ++ (ys.reverse ++ [target]))).length
        · rw [if_pos hlt] at h
          injection h with h1
          injection h1 with hp hd
          subst hp
          simp only [List.length_append, List.length_cons, List.length_reverse,
            List.length_nil, List.length_singleton] at hlt ⊢
          omega
        · rw [if_neg hlt] at h
          injection h with h1
          injection h1 with hp hd
          subst hp
          simp only [List.length_append, List.length_cons, List.length_reverse,
            List.length_nil, List.length_singleton] at hlt ⊢
          omega

/-- Witness for C6: concrete instance on the program's ring, current =
"Grinder", target = "Gear Vault" (chosen path has length 2 ≤ 5). -/
theorem find_quickest_way_length_le_half_ring_witness :
    find_quickest_way_to stationRing "Grinder" "Gear Vault" =
        some (["Grinder", "Gear Vault"], "backwards") ∧
      (["Grinder", "Gear Vault"] : List String).length ≤
        (stationRing.length + 1) / 2 :=
  ⟨by decide,
    find_quickest_way_length_le_half_ring stationRing (by decide) "Grinder"
      "Gear Vault" (by decide) (by decide) ["Grinder", "Gear Vault"]
      "backwards" (by decide)⟩
/-- C8: when the target equals the current viewpoint the navigator returns an
empty operation list with the sentinel direction "stay", and `turn_to` emits
no turn operations and leaves the current viewpoint unchanged. -/
theorem navigator_stay_on_target_eq_current :
    ∀ current : String,
      find_quickest_way_to stationRing current current = some ([], "stay") ∧
        turn_to current current = some (current, []) := by
  intro current
  refine ⟨?_, ?_⟩ <;>
    simp [turn_to, find_quickest_way_to, turnSteps]

/-! ## Perception verifier (src/bot/grind_bot.py lines 242–321) -/

/-- Outcome of the capture/locate/OCR collaborators during one attempt of
`get_dedi_materials`: whether `find_dedi` locates the template of a given
dedi on the screenshot, and what string `pytesseract` recognises in that
dedi's cropped region. -/
structure Attempt where
  located : String → Bool
  ocr : String → String

/-- The fixed tuple of dedi names iterated by `find_all_dedi_positions`. -/
def dediNames : List String :=
  ["pearl", "paste", "ingots", "electronics", "crystal", "hide"]

/-- The `for dedi in (...)` loop of `GrindBot.find_all_dedi_positions`
(lines 242–258): a bare `return` (i.e. `none`) as soon as one template is not
located, otherwise the insertion-ordered keys of the `images` dict (each
cropped image is identified by its dedi name; the pixel data itself is
irrelevant to the claims). -/
def findAllLoop (a : Attempt) : List String → Option (List String)
  | [] => some []
  | d :: rest =>
    if a.located d then (findAllLoop a rest).map (d :: ·) else none

/-- `GrindBot.find_all_dedi_positions` applied to one attempt's screenshot. -/
def find_all_dedi_positions (a : Attempt) : Option (List String) :=
  findAllLoop a dediNames

/-- How a call of `get_dedi_materials` can fail: the bare `raise Exception`
after ten unsuccessful attempts (the docstring calls it `DediNotFoundError`,
the spec `SensingExhaustedError`), or the `ValueError` that
`int(raw_result)` raises on a non-numeric OCR string. -/
inductive SensorError
  | exhausted
  | parseError (raw : String)
deriving DecidableEq, Repr

instance {ε α : Type} [DecidableEq ε] [DecidableEq α] : DecidableEq (Except ε α) :=
  fun x y =>
    match x, y with
    | .ok a, .ok b =>
      if h : a = b then isTrue (by rw [h])
      else isFalse (by intro hh; cases hh; exact h rfl)
    | .error a, .error b =>
      if h : a = b then isTrue (by rw [h])
      else isFalse (by intro hh; cases hh; exact h rfl)
    | .ok _, .error _ => isFalse (by intro hh; cases hh)
    | .error _, .ok _ => isFalse (by intro hh; cases hh)

/-- Python `int(...)` on the (already `rstrip`ed) OCR output: tesseract is run
with a digit-only whitelist, so the string is either a nonempty digit string
(parsed as an unsigned decimal) or `int` raises `ValueError` (`none`). -/
def pyInt? (s : String) : Option Nat :=
  if s.data ≠ [] ∧ s.data.all Char.isDigit then
    some (s.data.foldl (fun n c => n * 10 + (c.toNat - Char.toNat '0')) 0)
  else none

/-- The `for name in dedis` OCR loop of `get_dedi_materials` (lines 306–319):
`amounts[name] = int(raw_result)`, where `int` on a non-numeric string raises
`ValueError` (modelled as `.parseError`), aborting at the first bad entry. -/
def readAmounts (a : Attempt) :
    List String → Except SensorError (List (String × Nat))
  | [] => .ok []
  | k :: rest =>
    match pyInt? (a.ocr k) with
    | none => .error (.parseError (a.ocr k))
    | some v =>
      match readAmounts a rest with
      | .ok m => .ok ((k, v) :: m)
      | .error e => .error e

/-- The attempt loop `for i in range(10)` of `get_dedi_materials`:
`n` attempts remain and `i` is the current attempt index.  The corrective
`w`/`s` key presses issued between attempts do not influence the returned
value and are left implicit in the oracle. -/
def gdmGo (oracle : Nat → Attempt) :
    Nat → Nat → Except SensorError (List (String × Nat))
  | 0, _ => .error .exhausted
  | n + 1, i =>
    match find_all_dedi_positions (oracle i) with
    | none => gdmGo oracle n (i + 1)
    | some ks => readAmounts (oracle i) ks

/-- `GrindBot.get_dedi_materials` (src/bot/grind_bot.py lines 281–321). -/
def get_dedi_materials (oracle : Nat → Attempt) :
    Except SensorError (List (String × Nat)) :=
  gdmGo oracle 10 0

theorem findAllLoop_some_eq (a : Attempt) :
    ∀ names ks, findAllLoop a names = some ks → ks = names := by
  intro names
  induction names with
  | nil =>
    intro ks h
    simp only [findAllLoop] at h
    injection h with h
    exact h.symm
  | cons d rest ih =>
    intro ks h
    by_cases hd : a.located d
    · simp only [findAllLoop, hd, if_true, Option.map_eq_some'] at h
      obtain ⟨ks', hks', hf⟩ := h
      rw [← hf, ih ks' hks']
    · simp [findAllLoop, hd] at h

theorem readAmounts_ok_keys (a : Attempt) :
    ∀ ks m, readAmounts a ks = .ok m → m.map Prod.fst = ks := by
  intro ks
  induction ks with
  | nil =>
    intro m h
    simp only [readAmounts] at h
    injection h with h
    rw [← h]
    rfl
  | cons k rest ih =>
    intro m h
    simp only [readAmounts] at h
    cases hp : pyInt? (a.ocr k) with
    | none => rw [hp] at h; simp at h
    | some v =>
      rw [hp] at h
      cases hr : readAmounts a rest with
      | error e => rw [hr] at h; simp at h
      | ok m' =>
        rw [hr] at h
        injection h with h
        rw [← h, List.map_cons, ih m' hr]

theorem readAmounts_error_parse (a : Attempt) :
    ∀ ks e, readAmounts a ks = .error e → ∃ s, e = .parseError s := by
  intro ks
  induction ks with
  | nil => intro e h; simp [readAmounts] at h
  | cons k rest ih =>
    intro e h
    simp only [readAmounts] at h
    cases hp : pyInt? (a.ocr k) with
    | none =>
      rw [hp] at h
      injection h with h
      exact ⟨a.ocr k, h.symm⟩
    | some v =>
      rw [hp] at h
      cases hr : readAmounts a rest with
      | error f =>
        rw [hr] at h
        injection h with h
        exact h ▸ ih f hr
      | ok m' => rw [hr] at h; simp at h

/-- If the first `k` attempts miss a region and attempt `k` locates all
regions, the whole call reduces to OCR-reading attempt `k`. -/
theorem gdmGo_first_found (oracle : Nat → Attempt) (ks : List String) :
    ∀ k n i, k < n → (∀ j, j < k → find_all_dedi_positions (oracle (i + j)) = none) →
      find_all_dedi_positions (oracle (i + k)) = some ks →
      gdmGo oracle n i = readAmounts (oracle (i + k)) ks := by
  intro k
  induction k with
  | zero =>
    intro n i hn hmiss hfound
    cases n with
    | zero => cases hn
    | succ m =>
      rw [show i + 0 = i from rfl] at hfound ⊢
      simp only [gdmGo, hfound]
  | succ k ih =>
    intro n i hn hmiss hfound
    cases n with
    | zero => cases hn
    | succ m =>
      have h0 : find_all_dedi_positions (oracle i) = none := by
        have := hmiss 0 (Nat.succ_pos k)
        simpa using this
      simp only [gdmGo, h0]
      have hmiss' : ∀ j, j < k → find_all_dedi_positions (oracle (i + 1 + j)) = none := by
        intro j hj
        have := hmiss (j + 1) (Nat.succ_lt_succ hj)
        rwa [show i + (j + 1) = i + 1 + j by omega] at this
      have hfound' : find_all_dedi_positions (oracle (i + 1 + k)) = some ks := by
        rwa [show i + (k + 1) = i + 1 + k by omega] at hfound
      rw [ih m (i + 1) (Nat.lt_of_succ_lt_succ hn) hmiss' hfound']
      rw [show i + 1 + k = i + (k + 1) by omega]

/-! ## Claims C3, C4 — perception verifier -/

/-- Claim C3 as stated: every call either returns a mapping whose key list is
exactly the requested dedi names, or raises the exhaustion error after the
bounded attempts.  (This is refuted: a non-numeric OCR string makes the call
raise the conversion error instead.) -/
def gdmClaimC3 : Prop :=
  ∀ oracle : Nat → Attempt,
    (∃ m, get_dedi_materials oracle = .ok m ∧ m.map Prod.fst = dediNames) ∨
      get_dedi_materials oracle = .error .exhausted

/-- An attempt in which every template is located but OCR reads the
non-numeric string "a" everywhere. -/
def badParseAttempt : Attempt :=
  { located := fun _ => true, ocr := fun _ => "a" }

/-- Counterexample to C3 as stated: with every attempt fully located but OCR
yielding "a", the call neither returns a full mapping nor raises exhaustion —
it propagates the `int()` conversion error. -/
theorem gdm_exhaustion_dichotomy_refuted : ¬ gdmClaimC3 := by
  intro h
  have hval : get_dedi_materials (fun _ => badParseAttempt) =
      .error (.parseError "a") := by decide
  rcases h (fun _ => badParseAttempt) with ⟨m, hm, -⟩ | hex
  · rw [hval] at hm; cases hm
  · rw [hval] at hex; cases hex

/-- C3 amended: every call either returns a mapping whose key list is exactly
the requested dedi names, all read during one single attempt `k < 10`, or
raises the exhaustion error, or propagates the conversion error of a
non-numeric reading. -/
theorem get_dedi_materials_all_or_nothing (oracle : Nat → Attempt) :
    (∃ m k, get_dedi_materials oracle = .ok m ∧ k < 10 ∧
        readAmounts (oracle k) dediNames = .ok m ∧
        m.map Prod.fst = dediNames) ∨
      get_dedi_materials oracle = .error .exhausted ∨
      (∃ s, get_dedi_materials oracle = .error (.parseError s)) := by
  have main : ∀ n i,
      (∃ m k, gdmGo oracle n i = .ok m ∧ k < n ∧
          readAmounts (oracle (i + k)) dediNames = .ok m ∧
          m.map Prod.fst = dediNames) ∨
        gdmGo oracle n i = .error .exhausted ∨
        (∃ s, gdmGo oracle n i = .error (.parseError s)) := by
    intro n
    induction n with
    | zero => intro i; exact Or.inr (Or.inl rfl)
    | succ n ih =>
      intro i
      cases hf : find_all_dedi_positions (oracle i) with
      | none =>
        have step : gdmGo oracle (n + 1) i = gdmGo oracle n (i + 1) := by
          simp only [gdmGo, hf]
        rcases ih (i + 1) with ⟨m, k, hm, hk, hread, hkeys⟩ | hex | ⟨s, hs⟩
        · refine Or.inl ⟨m, k + 1, ?_, Nat.succ_lt_succ hk, ?_, hkeys⟩
          · rw [step]; exact hm
          · rwa [show i + (k + 1) = i + 1 + k by omega]
        · exact Or.inr (Or.inl (step.trans hex))
        · exact Or.inr (Or.inr ⟨s, step.trans hs⟩)
      | some ks =>
        have hks : ks = dediNames := findAllLoop_some_eq (oracle i) dediNames ks hf
        subst hks
        have step : gdmGo oracle (n + 1) i = readAmounts (oracle i) dediNames := by
          simp only [gdmGo, hf]
        cases hr : readAmounts (oracle i) dediNames with
        | ok m =>
          refine Or.inl ⟨m, 0, step.trans hr, Nat.succ_pos n, ?_, ?_⟩
          · simpa using hr
          · exact readAmounts_ok_keys (oracle i) dediNames m hr
        | error e =>
          obtain ⟨s, rfl⟩ := readAmounts_error_parse (oracle i) dediNames e hr
          exact Or.inr (Or.inr ⟨s, step.trans hr⟩)
  simpa using main 10 0

/-- The missing-region attempt used to state C4: no template is located. -/
def missingAttempt : Attempt :=
  { located := fun _ => false, ocr := fun _ => "" }

/-- Claim C4 as stated: an attempt whose regions are all located but whose
OCR output fails to parse is treated exactly like an attempt with a missing
region — the whole call behaves as if that attempt had simply been abandoned
and retried. -/
def gdmClaimC4 : Prop :=
  ∀ (oracle : Nat → Attempt) (i : Nat),
    (find_all_dedi_positions (oracle i)).isSome →
    (∃ s, readAmounts (oracle i) dediNames = .error (.parseError s)) →
    get_dedi_materials oracle =
      get_dedi_materials (fun j => if j = i then missingAttempt else oracle j)

/-- Oracle whose attempt 0 locates everything but OCRs the non-numeric "a",
while every later attempt locates everything and OCRs "5". -/
def parseFailOracle : Nat → Attempt := fun i =>
  if i = 0 then { located := fun _ => true, ocr := fun _ => "a" }
  else { located := fun _ => true, ocr := fun _ => "5" }

/-- Counterexample to C4 as stated: with `parseFailOracle` the call propagates
the conversion error of attempt 0, whereas replacing attempt 0 by a
missing-region attempt would retry and succeed on attempt 1 — the two runs
differ, so a parse failure is not treated like a missing region. -/
theorem gdm_parse_failure_not_retried : ¬ gdmClaimC4 := by
  intro h
  have h1 := h parseFailOracle 0 (by decide) ⟨"a", by decide⟩
  exact absurd h1 (by decide)

/-- C4 amended: a non-numeric OCR reading in the first fully-located attempt
makes `get_dedi_materials` propagate the conversion error immediately — the
attempt is not abandoned-and-retried, unlike a missing region. -/
theorem gdm_parse_error_propagates (oracle : Nat → Attempt) (k : Nat)
    (ks : List String) (s : String) (hk : k < 10)
    (hmiss : ∀ j, j < k → find_all_dedi_positions (oracle j) = none)
    (hfound : find_all_dedi_positions (oracle k) = some ks)
    (hread : readAmounts (oracle k) ks = .error (.parseError s)) :
    get_dedi_materials oracle = .error (.parseError s) := by
  have := gdmGo_first_found oracle ks k 10 0 hk
    (by intro j hj; simpa using hmiss j hj) (by simpa using hfound)
  rw [get_dedi_materials, this, show 0 + k = k from by omega, hread]

/-- Witness for the amended C4 at the concrete oracle `parseFailOracle`,
attempt 0. -/
theorem gdm_parse_error_propagates_witness :
    (0 < 10 ∧ (∀ j : Nat, j < 0 → find_all_dedi_positions (parseFailOracle j) = none) ∧
        find_all_dedi_positions (parseFailOracle 0) = some dediNames ∧
        readAmounts (parseFailOracle 0) dediNames = .error (.parseError "a")) ∧
      get_dedi_materials parseFailOracle = .error (.parseError "a") :=
  ⟨⟨by decide, fun j hj => absurd hj (Nat.not_lt_zero j), by decide, by decide⟩,
    gdm_parse_error_propagates parseFailOracle 0 dediNames "a" (by decide)
      (fun j hj => absurd hj (Nat.not_lt_zero j)) (by decide) (by decide)⟩

/-! ## Plausibility bounding
(src/bot/stations/crystal/crystal_station.py lines 365–386) -/

/-- Python 3 `round` to an integer (banker's rounding: halves go to the
nearest even integer), on the exact rational value of the float argument. -/
def pythonRound (q : ℚ) : ℤ :=
  let f := ⌊q⌋
  if q - f < 1 / 2 then f
  else if (1 : ℚ) / 2 < q - f then f + 1
  else if f % 2 = 0 then f else f + 1

/-- `CrystalStation.validate_dust_amount` as written (lines 365–386): the
`return amount` on line 377 precedes the whole averaging/banding block, so
every call returns the raw amount unchanged.  The station state feeding the
dead code is `self._total_dust_made`, `self._total_pickups` and
`self.station_data.interval`. -/
def validate_dust_amount (total_dust_made total_pickups : Nat) (interval : ℚ)
    (amount : ℤ) : ℤ :=
  amount

/-- The unreachable remainder of `validate_dust_amount` (lines 378–386), i.e.
the behaviour its own docstring ("The given amount if its within a valid
range, else the average amount") and the spec describe: on a
`ZeroDivisionError` (no pickups yet) the average falls back to
`round(100 * interval)`, and the band test is
`average_amount - 5000 < amount < average_amount + 10000`. -/
def validate_dust_amount_body (total_dust_made total_pickups : Nat)
    (interval : ℚ) (amount : ℤ) : ℤ :=
  let average_amount : ℤ :=
    if total_pickups = 0 then pythonRound (100 * interval)
    else pythonRound ((total_dust_made : ℚ) / (total_pickups : ℚ))
  if average_amount - 5000 < amount ∧ amount < average_amount + 10000 then amount
  else average_amount

/-- C2 (code bug): with `_total_dust_made = 6000` over `_total_pickups = 2`
(expected 3000) and raw reading 50000, the code returns the raw 50000 —
the early `return amount` short-circuits the banding logic — although the
function's own docstring (and the claim) say the out-of-band reading is
replaced by the expected 3000, which is exactly what the unreachable
remainder of the function computes. -/
theorem validate_dust_amount_short_circuited :
    validate_dust_amount 6000 2 1 50000 = 50000 ∧
      validate_dust_amount_body 6000 2 1 50000 = 3000 := by
  constructor
  · rfl
  · have h3 : ((6000 : Nat) : ℚ) / ((2 : Nat) : ℚ) = 3000 := by norm_num
    rw [validate_dust_amount_body]
    simp only [h3]
    norm_num [pythonRound]

/-! ## Dedi-approach walking loop
(src/bot/stations/crystal/crystal_station.py lines 200–223) -/

/-- Outcomes of the two sensors consulted by `walk_to_dedi`: the `k`-th call
of `self.dedi.inventory.can_be_opened()` and the `k`-th call of
`self.dedi.can_deposit()`. -/
structure DediSensors where
  canBeOpened : Nat → Bool
  canDeposit : Nat → Bool

/-- Result of a terminating `walk_to_dedi` run, recording how many
`walk("w", 1)` steps were issued. -/
inductive WalkOutcome
  | success (walks : Nat)
  | notInRange (walks : Nat)
deriving DecidableEq, Repr

/-- The inner `while not self.dedi.can_deposit()` loop: walk, increment
`count`, and `raise DediNotInRangeError` once `count > 30`.  `d`, `w`,
`count` are the `can_deposit` call index, the walk counter and `count`.
`.inl` is normal exit with the updated loop state, `.inr` the raise (with
the total number of walks).  This loop is intrinsically bounded: `count`
strictly increases, so it terminates without fuel. -/
def innerDepositLoop (s : DediSensors) (d w count : Nat) : (Nat × Nat × Nat) ⊕ Nat :=
  if s.canDeposit d then .inl (d + 1, w, count)
  else if count + 1 > 30 then .inr (w + 1)
  else innerDepositLoop s (d + 1) (w + 1) (count + 1)
termination_by 31 - count
decreasing_by omega

/-- The outer `while not self.dedi.inventory.can_be_opened()` loop of
`walk_to_dedi`.  `o` is the `can_be_opened` call index; after a normal inner
exit one more `walk("w", 1)` is issued before re-checking.  The outer loop
has no bound of its own, hence the fuel; `none` models divergence. -/
def outerWalkLoop (s : DediSensors) : Nat → Nat → Nat → Nat → Nat → Option WalkOutcome
  | 0, _, _, _, _ => none
  | fuel + 1, o, d, w, count =>
    if s.canBeOpened o then some (.success w)
    else
      match innerDepositLoop s d w count with
      | .inr w' => some (.notInRange w')
      | .inl x => outerWalkLoop s fuel (o + 1) x.1 (x.2.1 + 1) x.2.2

/-- `CrystalStation.walk_to_dedi` (lines 200–223): `count = 0`, then the
nested sensor-driven walking loops. -/
def walk_to_dedi (s : DediSensors) (fuel : Nat) : Option WalkOutcome :=
  outerWalkLoop s fuel 0 0 0 0

/-- Claim C7 as stated: for every sequence of sensor outcomes the walking
loop terminates (succeeds or raises) within some bounded number of steps. -/
def walkClaimC7 : Prop :=
  ∀ s : DediSensors, ∃ fuel, (walk_to_dedi s fuel).isSome

/-- Sensor outcomes under which `walk_to_dedi` walks forever: the dedi never
becomes openable, yet the deposit prompt is always visible, so the inner
loop (the only place `count` grows) never runs its body. -/
def stuckSensors : DediSensors :=
  { canBeOpened := fun _ => false, canDeposit := fun _ => true }

theorem innerDepositLoop_deposit_true (s : DediSensors) (d w count : Nat)
    (h : s.canDeposit d = true) :
    innerDepositLoop s d w count = .inl (d + 1, w, count) := by
  unfold innerDepositLoop
  simp [h]

theorem outerWalkLoop_stuck :
    ∀ fuel o d w count, outerWalkLoop stuckSensors fuel o d w count = none := by
  intro fuel
  induction fuel with
  | zero => intro o d w count; rfl
  | succ n ih =>
    intro o d w count
    have hin : innerDepositLoop stuckSensors d w count = .inl (d + 1, w, count) :=
      innerDepositLoop_deposit_true stuckSensors d w count rfl
    have hopen : stuckSensors.canBeOpened o = false := rfl
    simp only [outerWalkLoop, hopen, Bool.false_eq_true, if_false, hin]
    exact ih (o + 1) (d + 1) (w + 1) count

/-- Counterexample to C7 as stated: with `stuckSensors` no amount of fuel
makes `walk_to_dedi` terminate — the loop is not bounded for every outcome
sequence. -/
theorem walk_to_dedi_termination_refuted : ¬ walkClaimC7 := by
  intro h
  obtain ⟨fuel, hf⟩ := h stuckSensors
  rw [walk_to_dedi, outerWalkLoop_stuck fuel 0 0 0 0] at hf
  cases hf

theorem innerDepositLoop_all_false (s : DediSensors)
    (hdep : ∀ k, s.canDeposit k = false) :
    ∀ j d w count, count + j = 30 → innerDepositLoop s d w count = .inr (w + j + 1) := by
  intro j
  induction j with
  | zero =>
    intro d w count hc
    unfold innerDepositLoop
    simp [hdep d]
    omega
  | succ m ih =>
    intro d w count hc
    unfold innerDepositLoop
    have hle : ¬ count + 1 > 30 := by omega
    simp only [hdep d, Bool.false_eq_true, if_false, hle]
    rw [ih (d + 1) (w + 1) (count + 1) (by omega)]
    congr 1
    omega

/-- C7 amended: the `count` guard bounds only the inner deposit loop — when
the dedi never shows the deposit prompt (and is never openable), the call
raises `DediNotInRangeError` after exactly 31 walk steps; but termination
for arbitrary sensor outcomes does not hold (see the counterexample, where
the outer loop walks forever). -/
theorem walk_to_dedi_exhaustion_bounded (s : DediSensors) (fuel : Nat)
    (hopen : s.canBeOpened 0 = false) (hdep : ∀ k, s.canDeposit k = false)
    (hfuel : 0 < fuel) :
    walk_to_dedi s fuel = some (.notInRange 31) := by
  cases fuel with
  | zero => cases hfuel
  | succ n =>
    rw [walk_to_dedi]
    simp only [outerWalkLoop, hopen, Bool.false_eq_true, if_false]
    rw [innerDepositLoop_all_false s hdep 30 0 0 0 rfl]

/-- Witness for the amended C7: concrete sensors that never allow opening
nor depositing make the call raise after exactly 31 walks. -/
theorem walk_to_dedi_exhaustion_bounded_witness :
    ((DediSensors.mk (fun _ => false) (fun _ => false)).canBeOpened 0 = false ∧
        (∀ k, (DediSensors.mk (fun _ => false) (fun _ => false)).canDeposit k = false) ∧
        0 < 1) ∧
      walk_to_dedi (DediSensors.mk (fun _ => false) (fun _ => false)) 1 =
        some (.notInRange 31) :=
  ⟨⟨rfl, fun _ => rfl, by decide⟩,
    walk_to_dedi_exhaustion_bounded (DediSensors.mk (fun _ => false) (fun _ => false))
      1 rfl (fun _ => rfl) (by decide)⟩

/-! ## Scheduler tick (src/bot/gacha_bot.py lines 410–444) -/

/-- The mutable counters of `GachaBot` read and written by `do_next_task`.
The wall-clock fields (`last_emptied`, timers) are folded into the Boolean
environment outcomes below. -/
structure GachaBotState where
  ytrapsDeposited : Nat
  currentBed : Nat
  lapsCompleted : Nat
  currentLap : Nat
deriving DecidableEq, Repr

/-- A Station executed by one tick: the crystal-collection roster entry
(whose `complete` visits every crystal bed in `self.crystal_beds`) or one
gacha seeding visit of the bed under the round-robin cursor. -/
inductive StationRun
  | crystalCollection (beds : List Nat)
  | gachaSeed (bed : Nat)
deriving DecidableEq, Repr

/-- `GachaBot.do_next_task` (lines 414–444).  `seedBeds` is
`self.tower_settings.seed_beds` (also `len(self.seed_beds)`), `crystalBeds`
is `len(self.crystal_beds)`.  Environment outcomes:
`needsRecovery = self.player.needs_recovery()` (the pod heal, "not actually
considered a task" per the docstring), `crystalsNeedPickup =
self.crystals_need_pickup()` (the elapsed-interval test), `addedTraps` the
stack count reported by the gacha station (0 when its exception handlers
swallowed a failure).  Returns the new state, whether the heal ran, and the
list of Stations executed.  A `TekPodNotAccessibleError` raised by `go_heal`
aborts the tick before any Station runs (zero Stations executed, which also
satisfies the at-most-one property); the model covers the non-raising
ticks. -/
def do_next_task (seedBeds crystalBeds : Nat)
    (needsRecovery crystalsNeedPickup : Bool) (addedTraps : Nat)
    (s : GachaBotState) : GachaBotState × Bool × List StationRun :=
  if crystalsNeedPickup ∧ s.ytrapsDeposited > 2000 then
    (s, needsRecovery, [.crystalCollection (List.range crystalBeds)])
  else
    let s' := { s with ytrapsDeposited := s.ytrapsDeposited + addedTraps * 10 }
    if s'.currentBed < seedBeds - 1 then
      ({ s' with currentBed := s'.currentBed + 1 }, needsRecovery,
        [.gachaSeed s.currentBed])
    else
      ({ s' with
          currentBed := 0
          lapsCompleted := s'.lapsCompleted + 1
          currentLap := s'.currentLap + 1 }, needsRecovery,
        [.gachaSeed s.currentBed])

/-- C5: each tick executes at most one Station, and the roster priority is
respected: the crystal-collection entry (ready when the pickup interval has
elapsed and more than 2000 y-traps were deposited) is checked first, and
only when it is not ready does the always-ready gacha-seeding entry run, at
the bed under the round-robin cursor. -/
theorem do_next_task_at_most_one_station (seedBeds crystalBeds : Nat)
    (needsRecovery crystalsNeedPickup : Bool) (addedTraps : Nat)
    (s : GachaBotState) :
    ((do_next_task seedBeds crystalBeds needsRecovery crystalsNeedPickup
        addedTraps s).2.2).length ≤ 1 ∧
      (do_next_task seedBeds crystalBeds needsRecovery crystalsNeedPickup
          addedTraps s).2.2 =
        if crystalsNeedPickup ∧ s.ytrapsDeposited > 2000 then
          [.crystalCollection (List.range crystalBeds)]
        else [.gachaSeed s.currentBed] := by
  by_cases h : crystalsNeedPickup = true ∧ s.ytrapsDeposited > 2000
  · simp [do_next_task, h]
  · by_cases h2 : s.currentBed < seedBeds - 1 <;> simp [do_next_task, h, h2]

/-! ## Y-trap station round robin and gacha loading
(src/bot/stations/ytrap/ytrap_station.py) -/

/-- The `YTrapStation` fields touched by `check_lap_finished`. -/
structure YTrapState where
  current_bed : Nat
  refill_lap : Bool
  current_lap : Nat
  last_refilled_pellets : ℚ
deriving DecidableEq, Repr

/-- `YTrapStation.check_lap_finished` (lines 92–104): advance the bed
cursor, or wrap it to 0 at the end of a lap (clearing `refill_lap` and
stamping `last_refilled_pellets = time.time()` when the finished lap was a
refill lap) and count the lap.  `numBeds = len(self.station_data.beds)`,
`now = time.time()`. -/
def check_lap_finished (numBeds : Nat) (now : ℚ) (s : YTrapState) : YTrapState :=
  if s.current_bed < numBeds - 1 then { s with current_bed := s.current_bed + 1 }
  else
    let s₁ := { s with current_bed := 0 }
    let s₂ :=
      if s₁.refill_lap then
        { s₁ with refill_lap := false, last_refilled_pellets := now }
      else s₁
    { s₂ with current_lap := s₂.current_lap + 1 }

/-- The beds visited by `n` consecutive selections of the y-trap station:
each selection serves `current_bed` and then advances the cursor via
`check_lap_finished`. -/
def bedTrace (numBeds : Nat) (now : ℚ) : Nat → YTrapState → List Nat
  | 0, _ => []
  | n + 1, s => s.current_bed :: bedTrace numBeds now n (check_lap_finished numBeds now s)

theorem check_lap_finished_current_bed (numBeds : Nat) (now : ℚ) (s : YTrapState)
    (hc : s.current_bed < numBeds) :
    (check_lap_finished numBeds now s).current_bed = (s.current_bed + 1) % numBeds := by
  by_cases h : s.current_bed < numBeds - 1
  · have hlt : s.current_bed + 1 < numBeds := by omega
    simp [check_lap_finished, h, Nat.mod_eq_of_lt hlt]
  · have he : s.current_bed + 1 = numBeds := by omega
    cases hr : s.refill_lap <;> simp [check_lap_finished, h, hr, he, Nat.mod_self]

theorem bedTrace_eq_map (numBeds : Nat) (now : ℚ) :
    ∀ n s, s.current_bed < numBeds →
      bedTrace numBeds now n s =
        (List.range n).map (fun i => (s.current_bed + i) % numBeds) := by
  intro n
  induction n with
  | zero => intro s _; rfl
  | succ m ih =>
    intro s hc
    have hK : 0 < numBeds := Nat.lt_of_le_of_lt (Nat.zero_le _) hc
    rw [bedTrace, ih (check_lap_finished numBeds now s)
        (by rw [check_lap_finished_current_bed numBeds now s hc]; exact Nat.mod_lt _ hK)]
    rw [List.range_succ_eq_map, List.map_cons, List.map_map]
    congr 1
    · simp [Nat.mod_eq_of_lt hc]
    · apply List.map_congr_left
      intro i _
      simp only [Function.comp_apply, check_lap_finished_current_bed numBeds now s hc,
        Nat.mod_add_mod]
      congr 1
      omega

theorem bed_cursor_after (numBeds : Nat) (now : ℚ) :
    ∀ n s, s.current_bed < numBeds →
      ((check_lap_finished numBeds now)^[n] s).current_bed =
        (s.current_bed + n) % numBeds := by
  intro n
  induction n with
  | zero =>
    intro s hc
    simp [Nat.mod_eq_of_lt hc]
  | succ m ih =>
    intro s hc
    have hK : 0 < numBeds := Nat.lt_of_le_of_lt (Nat.zero_le _) hc
    rw [Function.iterate_succ_apply, ih (check_lap_finished numBeds now s)
        (by rw [check_lap_finished_current_bed numBeds now s hc]; exact Nat.mod_lt _ hK)]
    rw [check_lap_finished_current_bed numBeds now s hc, Nat.mod_add_mod]
    congr 1
    omega

/-- C9: the bed cursor advances by exactly one position per selection,
wrapping to the first bed after the last, so `K` consecutive selections of a
`K`-bed group visit each bed exactly once and return the cursor to its
initial position.  The last conjunct shows that the seed-bed cursor of
`do_next_task` (lines 433–444) performs the identical advance-and-wrap on
its gacha-seeding branch. -/
theorem bed_cursor_round_robin (K : Nat) (now : ℚ) (s : YTrapState)
    (hK : 0 < K) (hc : s.current_bed < K) :
    (check_lap_finished K now s).current_bed = (s.current_bed + 1) % K ∧
      (bedTrace K now K s).Perm (List.range K) ∧
      ((check_lap_finished K now)^[K] s).current_bed = s.current_bed ∧
      (∀ crystalBeds : Nat, ∀ needsRecovery : Bool, ∀ addedTraps y lc cl : Nat,
        ((do_next_task K crystalBeds needsRecovery false addedTraps
            (GachaBotState.mk y s.current_bed lc cl)).1).currentBed =
          (s.current_bed + 1) % K) := by
  refine ⟨check_lap_finished_current_bed K now s hc, ?_, ?_, ?_⟩
  · rw [bedTrace_eq_map K now K s hc]
    have hnd : ((List.range K).map (fun i => (s.current_bed + i) % K)).Nodup := by
      refine List.Nodup.map_on ?_ (List.nodup_range K)
      intro i hi j hj hij
      have hmod : i % K = j % K := Nat.ModEq.add_left_cancel' s.current_bed hij
      rw [List.mem_range] at hi hj
      rwa [Nat.mod_eq_of_lt hi, Nat.mod_eq_of_lt hj] at hmod
    have hsub : ((List.range K).map (fun i => (s.current_bed + i) % K)) ⊆
        List.range K := by
      intro x hx
      rw [List.mem_map] at hx
      obtain ⟨i, -, rfl⟩ := hx
      rw [List.mem_range]
      exact Nat.mod_lt _ hK
    refine (List.subperm_of_subset hnd hsub).perm_of_length_le ?_
    simp
  · rw [bed_cursor_after K now K s hc, Nat.add_mod_right, Nat.mod_eq_of_lt hc]
  · intro crystalBeds needsRecovery addedTraps y lc cl
    by_cases h2 : s.current_bed < K - 1
    · have hlt : s.current_bed + 1 < K := by omega
      simp [do_next_task, h2, Nat.mod_eq_of_lt hlt]
    · have he : s.current_bed + 1 = K := by omega
      simp [do_next_task, h2, he, Nat.mod_self]

/-- Witness for C9 at `K = 3`, cursor 1: the three consecutive selections
visit beds 1, 2, 0 and the cursor returns to 1. -/
theorem bed_cursor_round_robin_witness :
    (0 < 3 ∧ (YTrapState.mk 1 false 0 0).current_bed < 3) ∧
      ((check_lap_finished 3 0 (YTrapState.mk 1 false 0 0)).current_bed = (1 + 1) % 3 ∧
        (bedTrace 3 0 3 (YTrapState.mk 1 false 0 0)).Perm (List.range 3) ∧
        ((check_lap_finished 3 0)^[3] (YTrapState.mk 1 false 0 0)).current_bed = 1 ∧
        (∀ crystalBeds : Nat, ∀ needsRecovery : Bool, ∀ addedTraps y lc cl : Nat,
          ((do_next_task 3 crystalBeds needsRecovery false addedTraps
              (GachaBotState.mk y 1 lc cl)).1).currentBed = (1 + 1) % 3)) :=
  ⟨⟨by decide, by decide⟩,
    bed_cursor_round_robin 3 0 (YTrapState.mk 1 false 0 0) (by decide) (by decide)⟩

/-- `YTrapStation.load_gacha` (lines 129–164), keeping only the quantities
the return value depends on: `stackCount = self.player.inventory.count_item(Y_TRAP)`
and `ocrTransferred = self.player.inventory.get_amount_transferred(Y_TRAP, "rm")`
(the OCR of the transferred amount, read only when the initial estimate
exceeded 400). -/
def load_gacha (stackCount ocrTransferred : Nat) : Nat :=
  let initial := stackCount * 10
  let ocr_amount := 400 < initial
  let amount_of_traps := if ocr_amount then ocrTransferred else initial
  if 400 < amount_of_traps ∧ amount_of_traps < 800 then amount_of_traps
  else if ocr_amount then 600 else amount_of_traps

/-- C10: `load_gacha` always returns a value strictly below 800; the initial
estimate `stackCount * 10` is returned verbatim when it is at most 400, and
otherwise the OCR-derived amount is returned exactly when it lies strictly
between 400 and 800, with 600 substituted in every other case. -/
theorem load_gacha_lt_800 (stackCount ocrTransferred : Nat) :
    load_gacha stackCount ocrTransferred < 800 ∧
      load_gacha stackCount ocrTransferred =
        if stackCount * 10 ≤ 400 then stackCount * 10
        else if 400 < ocrTransferred ∧ ocrTransferred < 800 then ocrTransferred
        else 600 := by
  rw [load_gacha]
  split_ifs <;> simp_all <;> omega

end GachaBot
